import Mathlib

/-!
# PinnacleSort core: shallow embedding and verification

This file embeds the scan-classify-aggregate core of `src/main.rs`
(`FileCleanerApp`) in Lean 4 and proves the specified properties of it.

Modelling conventions:
* Rust `String`s are `List Char`; `to_lowercase`, `ends_with`, `contains`,
  `starts_with` become `List.map Char.toLower`, `List.isSuffixOf`,
  `List.isInfixOf`, `List.isPrefixOf` (the fixed patterns in the program are
  ASCII, where `Char.toLower` agrees with Rust lowercasing).
* `SystemTime` instants are seconds since the epoch as `Nat`; `Duration`s are
  seconds as `Nat`.  `SystemTime::now() - time_limit` becomes truncated `Nat`
  subtraction (for times before the epoch both sides classify the file as
  recently accessed, so the truncation is faithful).  The two `now()` calls in
  `scan_directory_recursive` are modelled as a single instant.
* Filesystem effects (`read_dir`, `fs::metadata`, `fs::remove_file`) are
  modelled by explicit data: a tree of entries for scanning, a listing oracle
  for sibling enumeration, and a success oracle for file removal.
-/

/-- Rust `str::to_lowercase` on a `List Char` string (ASCII-faithful). -/
def toLowerStr (s : List Char) : List Char := s.map Char.toLower

/-- Rust `str::starts_with('.')` used for the hidden-entry test. -/
def startsWithDot (name : List Char) : Bool :=
  match name with
  | [] => false
  | c :: _ => c == '.'

/-- Split a string at the LAST occurrence of `c`:
`splitLast c s = some (before, after)` with `s = before ++ c :: after` and
`c ∉ after`; `none` when `c` does not occur. -/
def splitLast (c : Char) : List Char → Option (List Char × List Char)
  | [] => none
  | x :: xs =>
    match splitLast c xs with
    | some (b, a) => some (x :: b, a)
    | none => if x == c then some ([], xs) else none

/-- The final path component (Rust `Path::file_name`, for `/`-separated
paths as the program builds them). -/
def lastComponent (path : List Char) : List Char :=
  match splitLast '/' path with
  | none => path
  | some (_, a) => a

/-- Rust `Path::file_stem` on a file name: the part before the last `.`,
except that a name whose only `.` is leading is its own stem. -/
def fileStem (name : List Char) : List Char :=
  match splitLast '.' name with
  | none => name
  | some (b, _) => if b = [] then name else b

/-- Rust `path.parent().and_then(|p| p.to_str()).unwrap_or("")` for the
`/`-separated paths the program builds: everything before the last `/`
(`"/"` when that is empty), `""` when there is no `/`. -/
def parentChars (path : List Char) : List Char :=
  match splitLast '/' path with
  | none => []
  | some (b, _) => if b = [] then ['/'] else b

/-- `dir.split('/').filter(|s| !s.is_empty())`: the nonempty `/`-separated
segments of a directory path. -/
def splitSlash (s : List Char) : List (List Char) :=
  (s.splitOn '/').filter (fun seg => seg ≠ [])

/-- One discovered file (Rust struct `ScanResult`). -/
structure ScanResult where
  file_path : List Char
  file_name : List Char
  should_delete : Bool
  days_since_access : Nat
deriving DecidableEq, Repr

instance : Inhabited ScanResult := ⟨⟨[], [], false, 0⟩⟩

/-! ## Classifier (`should_exclude_file`) -/

/-- `binary_extensions` from `should_exclude_file`. -/
def binaryExtensions : List (List Char) :=
  [".dll".toList, ".so".toList, ".dylib".toList, ".bin".toList, ".o".toList,
   ".a".toList, ".lib".toList, ".sys".toList, ".drv".toList, ".class".toList,
   ".pyc".toList, ".pyo".toList]

/-- `system_patterns` from `should_exclude_file`. -/
def systemPatterns : List (List Char) :=
  [".cache".toList, ".tmp".toList, ".temp".toList, ".log".toList,
   ".bak".toList, ".swp".toList, ".swo".toList, ".lock".toList,
   ".pid".toList, ".dat".toList, ".db".toList, ".sqlite".toList,
   ".idx".toList]

/-- `build_patterns` from `should_exclude_file`. -/
def buildPatterns : List (List Char) :=
  ["node_modules".toList, "target".toList, "build".toList, "dist".toList,
   ".git".toList, ".svn".toList]

/-- Rust `str::contains` (substring test) as a Bool. -/
def containsSub (pat s : List Char) : Bool := decide (pat <:+: s)

/-- Rust `FileCleanerApp::should_exclude_file` (the smart filter); the
sequence of early-returning `for` loops becomes `List.any`. -/
def shouldExcludeFile (smartFilterEnabled : Bool) (fileName : List Char) : Bool :=
  if !smartFilterEnabled then
    false
  else
    let fileLower := toLowerStr fileName
    if binaryExtensions.any (fun ext => ext.isSuffixOf fileLower) then true
    else if systemPatterns.any (fun pat => containsSub pat fileLower) then true
    else if buildPatterns.any (fun pat => containsSub pat fileLower) then true
    else false

/-! ## Scanner (`scan_directory_recursive`) -/

/-- `duration.as_secs() / (60*60*24)` where
`duration = now.duration_since(accessed).unwrap_or_default()`:
elapsed whole days, with a zero-duration fallback for a future access time. -/
def daysSinceAccess (now accessed : Nat) : Nat :=
  (if accessed ≤ now then now - accessed else 0) / (60 * 60 * 24)

/-- A filesystem entry as `scan_directory_recursive` observes it.
`file name none` is a file whose metadata/access time cannot be read;
`dir name none` is a directory `read_dir` fails on. -/
inductive FsEntry where
  | file (name : List Char) (accessed : Option Nat)
  | dir (name : List Char) (contents : Option (List FsEntry))

/-- The base name of an entry (Rust `entry.file_name()`). -/
def FsEntry.name : FsEntry → List Char
  | .file n _ => n
  | .dir n _ => n

/-- Rust `FileCleanerApp::scan_directory_recursive`, per entry: the results
pushed for one `read_dir` entry of the directory at `dirPath`, at instant
`now`, with `time_limit = timeLimit` seconds. -/
def scanEntry (smart : Bool) (now timeLimit : Nat) :
    List Char → FsEntry → List ScanResult
  | dirPath, .dir name contents =>
    if startsWithDot name then []
    else
      match contents with
      | none => []
      | some es =>
        ((es.attach.map fun e => scanEntry smart now timeLimit
            (dirPath ++ '/' :: name) e.1)).flatten
  | dirPath, .file name accessed =>
    if startsWithDot name then []
    else if shouldExcludeFile smart name then []
    else
      match accessed with
      | none => []
      | some a =>
        -- recently_accessed = accessed >= now - time_limit
        if now - timeLimit ≤ a then []
        else
          [{ file_path := dirPath ++ '/' :: name
             file_name := name
             should_delete := true
             days_since_access := daysSinceAccess now a }]
termination_by _ e => sizeOf e
decreasing_by
  simp_wf
  have h1 := List.sizeOf_lt_of_mem e.2
  omega

/-- The `for entry in entries` loop of `scan_directory_recursive` over a
directory listing. -/
def scanEntries (smart : Bool) (now timeLimit : Nat) (dirPath : List Char)
    (es : List FsEntry) : List ScanResult :=
  (es.map (scanEntry smart now timeLimit dirPath)).flatten

/-! ## Executable association (`get_exe_base_name`, `find_associated_files`) -/

/-- Rust `FileCleanerApp::get_exe_base_name`. -/
def getExeBaseName (path : List Char) : Option (List Char) :=
  if (".exe".toList).isSuffixOf (toLowerStr path) then
    some (fileStem (lastComponent path))
  else
    none

/-- `supporting_extensions` from `find_associated_files`. -/
def supportingExtensions : List (List Char) :=
  [".dll".toList, ".dat".toList, ".ini".toList, ".cfg".toList, ".config".toList]

/-- Rust `FileCleanerApp::find_associated_files`.  The effectful
`fs::read_dir` of the executable's parent directory is supplied as the
`listing` of entry names; each entry's path is the parent joined with its
name.  The `for` loop with `continue`/`push` becomes `filter`/`map`, and the
inner `for`+`break` over extensions becomes `List.any`. -/
def findAssociatedFiles (exePath : List Char) (listing : List (List Char)) :
    List (List Char) :=
  match getExeBaseName exePath with
  | none => []
  | some baseName =>
    let dir := parentChars exePath
    ((listing.filter fun n =>
        -- skip the .exe itself (path comparison)
        (!(dir ++ '/' :: n == exePath)) &&
        (toLowerStr baseName).isPrefixOf (toLowerStr n) &&
        supportingExtensions.any (fun ext => ext.isSuffixOf (toLowerStr n))).map
      fun n => dir ++ '/' :: n)

/-! ## Aggregator / selection tree
(`render_directory_tree`, `count_files_recursive`, `select_all_recursive`)

`render_directory_tree` builds, from the flat `scan_results`,
* `file_map : dir-path → indices of results whose parent is that path`, and
* `tree : dir-path → deduplicated child paths`, registering for each result
  with parent segments `d` every edge `take i d → take (i+1) d` (`0 < i`).
Path strings are identified with their nonempty-`/`-segment decomposition
(exact for the absolute `/`-rooted paths the program constructs); the
`sort`+`dedup` of child lists is modelled by `List.dedup` (same node set,
and neither counting nor selection depends on child order). -/

/-- The parent-directory segments of a result
(`Path::new(&result.file_path).parent()`, split on `/`). -/
def dirSegs (r : ScanResult) : List (List Char) :=
  splitSlash (parentChars r.file_path)

/-- `file_map` entry for path `p`: indices (in push order, starting at `n`)
of the results whose parent directory is `p`. -/
def fileIdxAux (p : List (List Char)) : List ScanResult → Nat → List Nat
  | [], _ => []
  | r :: rest, n =>
    (if dirSegs r = p then [n] else []) ++ fileIdxAux p rest (n + 1)

/-- `file_map.get(path)`: indices of the results whose parent directory is
`p` (the `for (idx, result) in scan_results.iter().enumerate()` loop). -/
def fileIdx (rs : List ScanResult) (p : List (List Char)) : List Nat :=
  fileIdxAux p rs 0

/-- The ancestor→child edges registered for one parent-directory path `d`:
`(d.take i, d.take (i+1))` for `0 < i < d.length`
(the `for i in 0..parts.len()` loop with its `i > 0` guard). -/
def childEdges (d : List (List Char)) : List (List (List Char) × List (List Char)) :=
  (List.range d.length).filterMap fun i =>
    if 0 < i then some (d.take i, d.take (i + 1)) else none

/-- `tree.get(path)`: the deduplicated children of node `p` in the tree
built from all results' parent chains. -/
def childrenOf (rs : List ScanResult) (p : List (List Char)) :
    List (List (List Char)) :=
  ((((rs.map fun r => childEdges (dirSegs r)).flatten).filter
      fun e => e.1 = p).map Prod.snd).dedup

/-- Rust `FileCleanerApp::count_files_recursive` at node `p`:
`(total, selected)` = direct files of `p` plus the recursive sums over the
children of `p`.  The source recursion terminates because child paths grow;
`fuel` bounds the remaining depth (theorems take any sufficient fuel). -/
def countRec (rs : List ScanResult) : Nat → List (List Char) → Nat × Nat
  | 0, _ => (0, 0)
  | fuel + 1, p =>
    let idxs := fileIdx rs p
    let direct := idxs.length
    let directSel :=
      (idxs.filter fun i => (rs.getD i default).should_delete).length
    (childrenOf rs p).foldl
      (fun acc q =>
        let c := countRec rs fuel q
        (acc.1 + c.1, acc.2 + c.2))
      (direct, directSel)

/-- `self.scan_results[idx].should_delete = select`. -/
def setShouldDelete (rs : List ScanResult) (i : Nat) (v : Bool) :
    List ScanResult :=
  rs.set i { rs.getD i default with should_delete := v }

/-- Rust `FileCleanerApp::select_all_recursive` at node `p`: the `tree` and
`file_map` are the ones built (from `rs0`) before the recursion starts, while
`rs` is the mutating `scan_results`.  `fuel` as in `countRec`. -/
def selectAllRec (rs0 : List ScanResult) :
    Nat → List (List Char) → Bool → List ScanResult → List ScanResult
  | 0, _, _, rs => rs
  | fuel + 1, p, v, rs =>
    let rs1 := (fileIdx rs0 p).foldl (fun acc i => setShouldDelete acc i v) rs
    (childrenOf rs0 p).foldl (fun acc q => selectAllRec rs0 fuel q v acc) rs1

/-- Modelled from the spec (`set_selection_recursive`, §4.3): set
`should_delete = value` for exactly the candidates whose parent chain passes
through the node.  `selectAllRec` is proved to refine this. -/
def setSelectionSpec (p : List (List Char)) (v : Bool)
    (rs : List ScanResult) : List ScanResult :=
  rs.map fun r => if p.isPrefixOf (dirSegs r) then { r with should_delete := v } else r

/-- The longest parent-chain length over all results (a depth bound for the
derived tree, used to give the fuel-based recursions enough fuel). -/
def maxDirLen (rs : List ScanResult) : Nat :=
  (rs.map fun r => (dirSegs r).length).foldr max 0

/-! ## Commit (`delete_files`) -/

/-- The counting loop of Rust `FileCleanerApp::delete_files`:
`(deleted_count, failed_count, associated_deleted)`.  `removeOk` is the
success oracle for `fs::remove_file` on a path; `listingOf` gives the
`read_dir` listing (entry names) of a directory, consumed by
`find_associated_files`. -/
def runDeleteFiles (removeOk : List Char → Bool)
    (listingOf : List Char → List (List Char)) (rs : List ScanResult) :
    Nat × Nat × Nat :=
  rs.foldl
    (fun acc r =>
      if r.should_delete then
        let assocDeleted :=
          if (".exe".toList).isSuffixOf (toLowerStr r.file_path) then
            ((findAssociatedFiles r.file_path
                (listingOf (parentChars r.file_path))).filter removeOk).length
          else 0
        if removeOk r.file_path then
          (acc.1 + 1, acc.2.1, acc.2.2 + assocDeleted)
        else
          (acc.1, acc.2.1 + 1, acc.2.2 + assocDeleted)
      else acc)
    (0, 0, 0)

/-- Rust `FileCleanerApp::delete_files`: compute the counts (which feed the
status message) and then `self.scan_results.clear()`.  Returns the counts and
the post-commit candidate collection. -/
def deleteFiles (removeOk : List Char → Bool)
    (listingOf : List Char → List (List Char)) (rs : List ScanResult) :
    (Nat × Nat × Nat) × List ScanResult :=
  (runDeleteFiles removeOk listingOf rs, [])


theorem scanEntry_file_eq (smart : Bool) (now L : Nat) (p name : List Char)
    (acc : Option Nat) :
    scanEntry smart now L p (.file name acc) =
      if startsWithDot name then []
      else if shouldExcludeFile smart name then []
      else
        match acc with
        | none => []
        | some a =>
          if now - L ≤ a then []
          else
            [{ file_path := p ++ '/' :: name
               file_name := name
               should_delete := true
               days_since_access := daysSinceAccess now a }] := by
  rw [scanEntry.eq_def]

theorem scanEntry_dir_eq (smart : Bool) (now L : Nat) (p name : List Char)
    (c : Option (List FsEntry)) :
    scanEntry smart now L p (.dir name c) =
      if startsWithDot name then []
      else
        match c with
        | none => []
        | some es => scanEntries smart now L (p ++ '/' :: name) es := by
  rw [scanEntry.eq_def]
  simp only [scanEntries, List.attach_map_val]

/-- C3: with the smart filter enabled, a file name is excluded if and only if
its lower-cased form ends with one of the fixed binary/library extensions, or
contains one of the fixed cache/temp/lock/db substrings, or contains one of
the fixed build/dependency substrings (substring-based, case-insensitive);
with the filter disabled no file name is excluded. -/
theorem smart_filter_excludes_iff (name : List Char) :
    (shouldExcludeFile true name = true ↔
      ((∃ ext ∈ binaryExtensions, ext <:+ toLowerStr name) ∨
       (∃ pat ∈ systemPatterns, pat <:+: toLowerStr name) ∨
       (∃ pat ∈ buildPatterns, pat <:+: toLowerStr name)))
    ∧ shouldExcludeFile false name = false := by
  refine ⟨?_, rfl⟩
  simp only [shouldExcludeFile, Bool.not_true, Bool.false_eq_true, if_false,
    containsSub, List.any_eq_true, List.isSuffixOf_iff_suffix, decide_eq_true_eq]
  split_ifs with h1 h2 h3 <;> simp_all

/-- C8: `days_since_access` is the floor of elapsed seconds since last access
divided by 86400, a future access time yields 0 days (zero-duration fallback,
not an error), and the candidate produced at discovery carries exactly this
value. -/
theorem days_since_access_floor (now a : Nat) :
    (a ≤ now → daysSinceAccess now a = (now - a) / (60 * 60 * 24))
    ∧ (now < a → daysSinceAccess now a = 0)
    ∧ (∀ (smart : Bool) (L : Nat) (p name : List Char),
        startsWithDot name = false → shouldExcludeFile smart name = false →
        ¬ now - L ≤ a →
        scanEntry smart now L p (.file name (some a)) =
          [{ file_path := p ++ '/' :: name, file_name := name,
             should_delete := true,
             days_since_access := daysSinceAccess now a }]) := by
  refine ⟨fun h => by simp [daysSinceAccess, h], fun h => by
    simp [daysSinceAccess, Nat.not_le.mpr h, Nat.le_of_lt h], ?_⟩
  intro smart L p nm hh hx hs
  rw [scanEntry_file_eq]
  simp [hh, hx, hs]

theorem days_since_access_floor_witness :
    ((2 : Nat) ≤ 259205 ∧ daysSinceAccess 259205 2 = (259205 - 2) / (60 * 60 * 24))
    ∧ ((100 : Nat) < 200 ∧ daysSinceAccess 100 200 = 0) :=
  ⟨⟨by decide, (days_since_access_floor 259205 2).1 (by decide)⟩,
   ⟨by decide, (days_since_access_floor 100 200).2.1 (by decide)⟩⟩

/-- C9: after every commit the candidate collection is cleared
unconditionally — it is empty on return for every removal-success oracle,
including ones under which some or all individual operations fail. -/
theorem commit_clears_candidates (removeOk : List Char → Bool)
    (listingOf : List Char → List (List Char)) (rs : List ScanResult) :
    (deleteFiles removeOk listingOf rs).2 = [] := rfl

/-- C2 counterexample: one selected `app.exe` whose associated `app.dll`
fails to delete (the oracle succeeds only on the `.exe` path).  The commit
result is `(deleted, failed, associated) = (1, 0, 0)`: the failed
associated-file removal is NOT counted in the failure count, refuting the
claim that every per-file failure is counted. -/
theorem assoc_failure_not_counted :
    runDeleteFiles (fun p => p == "/d/app.exe".toList) (fun _ => ["app.dll".toList])
        [⟨"/d/app.exe".toList, "app.exe".toList, true, 50⟩] = (1, 0, 0)
    ∧ findAssociatedFiles "/d/app.exe".toList ["app.dll".toList] = ["/d/app.dll".toList]
    ∧ ("/d/app.dll".toList == "/d/app.exe".toList) = false := by
  refine ⟨?_, ?_, by decide⟩ <;> decide

/-- C2 (amended): the commit counts are exactly: deleted = selected primary
files whose removal succeeds, failed = selected primary files whose removal
fails, associated = successful removals of associated files of selected
`.exe` candidates.  Failures of associated files are counted nowhere; no
per-file failure is fatal, and every candidate in the list is processed. -/
theorem runDeleteFiles_eq (removeOk : List Char → Bool)
    (listingOf : List Char → List (List Char)) (rs : List ScanResult) :
    runDeleteFiles removeOk listingOf rs =
      (rs.countP (fun r => r.should_delete && removeOk r.file_path),
       rs.countP (fun r => r.should_delete && !removeOk r.file_path),
       (rs.map fun r =>
          if r.should_delete &&
              (".exe".toList).isSuffixOf (toLowerStr r.file_path) then
            ((findAssociatedFiles r.file_path
                (listingOf (parentChars r.file_path))).filter removeOk).length
          else 0).sum) := by
  have go : ∀ (l : List ScanResult) (acc : Nat × Nat × Nat),
      l.foldl
        (fun acc r =>
          if r.should_delete then
            let assocDeleted :=
              if (".exe".toList).isSuffixOf (toLowerStr r.file_path) then
                ((findAssociatedFiles r.file_path
                    (listingOf (parentChars r.file_path))).filter removeOk).length
              else 0
            if removeOk r.file_path then
              (acc.1 + 1, acc.2.1, acc.2.2 + assocDeleted)
            else
              (acc.1, acc.2.1 + 1, acc.2.2 + assocDeleted)
          else acc)
        acc =
      (acc.1 + l.countP (fun r => r.should_delete && removeOk r.file_path),
       acc.2.1 + l.countP (fun r => r.should_delete && !removeOk r.file_path),
       acc.2.2 + (l.map fun r =>
          if r.should_delete &&
              (".exe".toList).isSuffixOf (toLowerStr r.file_path) then
            ((findAssociatedFiles r.file_path
                (listingOf (parentChars r.file_path))).filter removeOk).length
          else 0).sum) := by
    intro l
    induction l with
    | nil => simp
    | cons r rest ih =>
      intro acc
      simp only [List.foldl_cons, ih, List.countP_cons, List.map_cons,
        List.sum_cons]
      by_cases hsd : r.should_delete <;> by_cases hrm : removeOk r.file_path <;>
        simp [hsd, hrm] <;> omega
  simpa [runDeleteFiles] using go rs (0, 0, 0)

/-- C4: an entry whose base name starts with `.` contributes nothing to the
scan — it is neither reported nor descended into (its subtree is ignored
whatever it contains), and removing it from a directory listing does not
change the scan results. -/
theorem hidden_entries_skipped (smart : Bool) (now L : Nat) (p : List Char)
    (e : FsEntry) (h : startsWithDot e.name = true) :
    scanEntry smart now L p e = []
    ∧ ∀ pre post, scanEntries smart now L p (pre ++ e :: post) =
        scanEntries smart now L p pre ++ scanEntries smart now L p post := by
  have he : scanEntry smart now L p e = [] := by
    cases e with
    | file nm acc => rw [scanEntry_file_eq]; simp_all [FsEntry.name]
    | dir nm c => rw [scanEntry_dir_eq]; simp_all [FsEntry.name]
  refine ⟨he, fun pre post => ?_⟩
  simp [scanEntries, he]

theorem hidden_entries_skipped_witness :
    startsWithDot (FsEntry.dir ".git".toList
        (some [.file "x.txt".toList (some 0)])).name = true
    ∧ scanEntry true 10000000 (60 * 60 * 24 * 2) "/r".toList
        (.dir ".git".toList (some [.file "x.txt".toList (some 0)])) = [] :=
  ⟨by decide,
   (hidden_entries_skipped true 10000000 (60 * 60 * 24 * 2) "/r".toList
      (.dir ".git".toList (some [.file "x.txt".toList (some 0)])) (by decide)).1⟩

/-- C1: a non-hidden, non-excluded file with readable access time `a` is
included in the scan results if and only if `a` is strictly older than
`now - T` days; at the exact boundary `a = now - T` it is treated as
recently accessed and excluded. -/
theorem stale_iff_strictly_older (smart : Bool) (now T : Nat) (p name : List Char)
    (a : Nat) (hh : startsWithDot name = false)
    (hx : shouldExcludeFile smart name = false) :
    (scanEntry smart now (60 * 60 * 24 * T) p (.file name (some a)) ≠ [] ↔
      a < now - 60 * 60 * 24 * T)
    ∧ (a = now - 60 * 60 * 24 * T →
        scanEntry smart now (60 * 60 * 24 * T) p (.file name (some a)) = []) := by
  rw [scanEntry_file_eq]
  simp only [hh, hx, Bool.false_eq_true, if_false]
  constructor
  · constructor
    · intro hne
      by_contra hlt
      simp [Nat.le_of_not_lt hlt] at hne
    · intro hlt
      simp [Nat.not_le.mpr hlt]
  · intro hb
    simp [hb]

theorem stale_iff_strictly_older_witness :
    ((scanEntry true 1000000 (60 * 60 * 24 * 1) "/r".toList
        (.file "old.txt".toList (some 0)) ≠ [] ↔
      0 < 1000000 - 60 * 60 * 24 * 1)
    ∧ (0 = 1000000 - 60 * 60 * 24 * 1 →
        scanEntry true 1000000 (60 * 60 * 24 * 1) "/r".toList
          (.file "old.txt".toList (some 0)) = [])) :=
  stale_iff_strictly_older true 1000000 1 "/r".toList "old.txt".toList 0
    (by decide) (by decide)

theorem days_ge_threshold_of_stale {now a T : Nat}
    (h : a < now - 60 * 60 * 24 * T) : T ≤ daysSinceAccess now a := by
  have hle : a ≤ now := by omega
  have hgt : 60 * 60 * 24 * T + 1 ≤ now - a := by omega
  simp only [daysSinceAccess, hle, if_pos]
  rw [Nat.le_div_iff_mul_le (by norm_num)]
  omega

theorem scanEntry_days_ge (smart : Bool) (now T : Nat) :
    ∀ (n : Nat) (e : FsEntry) (p : List Char), sizeOf e ≤ n →
      ∀ r ∈ scanEntry smart now (60 * 60 * 24 * T) p e,
        T ≤ r.days_since_access := by
  intro n
  induction n with
  | zero =>
    intro e p hs
    exfalso
    cases e <;> simp_arith at hs
  | succ n ih =>
    intro e p hs r hr
    cases e with
    | file nm acc =>
      rw [scanEntry_file_eq] at hr
      split at hr
      · simp at hr
      split at hr
      · simp at hr
      split at hr
      · simp at hr
      next a =>
        split at hr
        · simp at hr
        next hst =>
          simp only [List.mem_singleton] at hr
          subst hr
          exact days_ge_threshold_of_stale (by omega)
    | dir nm c =>
      rw [scanEntry_dir_eq] at hr
      split at hr
      · simp at hr
      match c with
      | none => simp at hr
      | some es =>
        simp only [scanEntries, List.mem_flatten, List.mem_map] at hr
        obtain ⟨l, ⟨e', he', rfl⟩, hrl⟩ := hr
        have hsz : sizeOf e' ≤ n := by
          have h1 := List.sizeOf_lt_of_mem he'
          simp_arith at hs
          omega
        exact ih e' _ hsz r hrl

/-- C10: every candidate produced by a scan with age threshold `T` days
satisfies `days_since_access ≥ T`. -/
theorem scan_results_days_ge_threshold (smart : Bool) (now T : Nat)
    (p : List Char) (es : List FsEntry) :
    ∀ r ∈ scanEntries smart now (60 * 60 * 24 * T) p es,
      T ≤ r.days_since_access := by
  intro r hr
  simp only [scanEntries, List.mem_flatten, List.mem_map] at hr
  obtain ⟨l, ⟨e, he, rfl⟩, hrl⟩ := hr
  exact scanEntry_days_ge smart now T (sizeOf e) e p (Nat.le_refl _) r hrl

theorem scan_results_days_ge_threshold_witness :
    (⟨"/r/old.txt".toList, "old.txt".toList, true, 11⟩ : ScanResult) ∈
      scanEntries true 1000000 (60 * 60 * 24 * 2) "/r".toList
        [.file "old.txt".toList (some 0)]
    ∧ (2 : Nat) ≤
      (⟨"/r/old.txt".toList, "old.txt".toList, true, 11⟩ : ScanResult).days_since_access := by
  have hm : (⟨"/r/old.txt".toList, "old.txt".toList, true, 11⟩ : ScanResult) ∈
      scanEntries true 1000000 (60 * 60 * 24 * 2) "/r".toList
        [.file "old.txt".toList (some 0)] := by
    rw [scanEntries]
    simp only [List.map_cons, List.map_nil]
    rw [scanEntry_file_eq]
    norm_num [startsWithDot, shouldExcludeFile, daysSinceAccess]
    decide
  exact ⟨hm, scan_results_days_ge_threshold true 1000000 2 "/r".toList
    [.file "old.txt".toList (some 0)] _ hm⟩

/-- getExeBaseName when the path does not end in `.exe` (case-insensitive). -/
theorem getExeBaseName_none {path : List Char}
    (h : (".exe".toList).isSuffixOf (toLowerStr path) = false) :
    getExeBaseName path = none := by
  simp only [getExeBaseName, h, Bool.false_eq_true, if_false]

/-- getExeBaseName when the path ends in `.exe` (case-insensitive). -/
theorem getExeBaseName_some {path : List Char}
    (h : (".exe".toList).isSuffixOf (toLowerStr path) = true) :
    getExeBaseName path = some (fileStem (lastComponent path)) := by
  simp only [getExeBaseName, h, if_true]

/-- C7: for a path ending in `.exe` (case-insensitive),
`find_associated_files` returns exactly the sibling entries (other than the
executable itself) whose name case-insensitively starts with the
executable's stem and ends with one of `.dll .dat .ini .cfg .config`; for
any other path it returns the empty list. -/
theorem find_associated_files_iff (exePath : List Char)
    (listing : List (List Char)) :
    ((".exe".toList).isSuffixOf (toLowerStr exePath) = false →
      findAssociatedFiles exePath listing = [])
    ∧ (∀ y, y ∈ findAssociatedFiles exePath listing ↔
        ((".exe".toList).isSuffixOf (toLowerStr exePath) = true ∧
         ∃ n ∈ listing,
           y = parentChars exePath ++ '/' :: n ∧
           parentChars exePath ++ '/' :: n ≠ exePath ∧
           (toLowerStr (fileStem (lastComponent exePath))).isPrefixOf
             (toLowerStr n) = true ∧
           ∃ ext ∈ supportingExtensions, ext.isSuffixOf (toLowerStr n) = true)) := by
  constructor
  · intro h
    simp only [findAssociatedFiles, getExeBaseName_none h]
  · intro y
    rcases hb : (".exe".toList).isSuffixOf (toLowerStr exePath) with _ | _
    · simp only [findAssociatedFiles, getExeBaseName_none hb, List.not_mem_nil,
        false_iff, not_and]
      intro hc
      simp [hb] at hc
    · simp only [findAssociatedFiles, getExeBaseName_some hb, List.mem_map,
        List.mem_filter, Bool.and_eq_true, Bool.not_eq_true',
        beq_eq_false_iff_ne, ne_eq, List.any_eq_true, true_and]
      constructor
      · rintro ⟨n, ⟨hn, ⟨hne, hpre⟩, hext⟩, rfl⟩
        exact ⟨n, hn, rfl, hne, hpre, hext⟩
      · rintro ⟨n, hn, rfl, hne, hpre, hext⟩
        exact ⟨n, ⟨hn, ⟨hne, hpre⟩, hext⟩, rfl⟩

theorem find_associated_files_iff_witness :
    (".exe".toList).isSuffixOf (toLowerStr "/d/notes.txt".toList) = false
    ∧ findAssociatedFiles "/d/notes.txt".toList ["notes.dll".toList] = [] :=
  ⟨by decide,
   (find_associated_files_iff "/d/notes.txt".toList ["notes.dll".toList]).1
     (by decide)⟩

theorem fileIdxAux_map_getD (p : List (List Char)) :
    ∀ (rs : List ScanResult) (n : Nat) (big : List ScanResult),
      (∀ j, j < rs.length → big.getD (n + j) default = rs.getD j default) →
      (fileIdxAux p rs n).map (fun i => big.getD i default) =
        rs.filter (fun r => decide (dirSegs r = p)) := by
  intro rs
  induction rs with
  | nil => intro n big _; simp [fileIdxAux]
  | cons r rest ih =>
    intro n big hbig
    have h0 : big.getD n default = r := by
      have := hbig 0 (by simp)
      simpa using this
    have htail : ∀ j, j < rest.length →
        big.getD (n + 1 + j) default = rest.getD j default := by
      intro j hj
      have := hbig (j + 1) (by simp; omega)
      simpa [Nat.add_assoc, Nat.add_comm 1 j] using this
    have ihh := ih (n + 1) big htail
    by_cases hd : dirSegs r = p
    · simp only [fileIdxAux, hd, if_pos, List.map_append, List.map_cons,
        List.map_nil, ihh, List.filter_cons, decide_eq_true hd, h0]
      simp
    · simp only [fileIdxAux, hd, if_false, List.nil_append, ihh,
        List.filter_cons]
      simp [hd]

theorem fileIdx_map_getD (rs : List ScanResult) (p : List (List Char)) :
    (fileIdx rs p).map (fun i => rs.getD i default) =
      rs.filter (fun r => decide (dirSegs r = p)) :=
  fileIdxAux_map_getD p rs 0 rs (fun j _ => by simp)

theorem fileIdx_length (rs : List ScanResult) (p : List (List Char)) :
    (fileIdx rs p).length = rs.countP (fun r => decide (dirSegs r = p)) := by
  rw [List.countP_eq_length_filter, ← fileIdx_map_getD rs p, List.length_map]

theorem fileIdx_filter_length (rs : List ScanResult) (p : List (List Char)) :
    ((fileIdx rs p).filter
        (fun i => (rs.getD i default).should_delete)).length =
      rs.countP (fun r => decide (dirSegs r = p) && r.should_delete) := by
  have h2 : (List.filter (fun i => (rs.getD i default).should_delete)
        (fileIdx rs p)).length =
      (List.filter (fun r => r.should_delete)
        ((fileIdx rs p).map (fun i => rs.getD i default))).length := by
    rw [List.filter_map, List.length_map]
    rfl
  rw [h2, fileIdx_map_getD, List.filter_filter, List.countP_eq_length_filter]
  exact congrArg List.length (List.filter_congr (fun a _ => by rw [Bool.and_comm]))

theorem mem_childrenOf {rs : List ScanResult} {p q : List (List Char)} :
    q ∈ childrenOf rs p ↔
      ∃ r ∈ rs, ∃ i, 0 < i ∧ i < (dirSegs r).length ∧
        (dirSegs r).take i = p ∧ (dirSegs r).take (i + 1) = q := by
  constructor
  · intro hq
    rw [childrenOf, List.mem_dedup] at hq
    obtain ⟨e, he, rfl⟩ := List.mem_map.mp hq
    obtain ⟨he1, he2⟩ := List.mem_filter.mp he
    obtain ⟨l, hl, hel⟩ := List.mem_flatten.mp he1
    obtain ⟨r, hr, rfl⟩ := List.mem_map.mp hl
    rw [childEdges] at hel
    obtain ⟨i, hi, hsome⟩ := List.mem_filterMap.mp hel
    rw [List.mem_range] at hi
    by_cases h0 : 0 < i
    · rw [if_pos h0] at hsome
      obtain rfl := Option.some.inj hsome
      exact ⟨r, hr, i, h0, hi, of_decide_eq_true he2, rfl⟩
    · rw [if_neg h0] at hsome
      exact absurd hsome (by simp)
  · rintro ⟨r, hr, i, hi0, hil, htp, htq⟩
    rw [childrenOf, List.mem_dedup]
    refine List.mem_map.mpr ⟨((dirSegs r).take i, (dirSegs r).take (i + 1)),
      List.mem_filter.mpr ⟨List.mem_flatten.mpr
        ⟨childEdges (dirSegs r), List.mem_map.mpr ⟨r, hr, rfl⟩, ?_⟩,
        by simpa using htp⟩, htq⟩
    rw [childEdges]
    exact List.mem_filterMap.mpr ⟨i, List.mem_range.mpr hil, by rw [if_pos hi0]⟩

theorem childrenOf_length {rs : List ScanResult} {p q : List (List Char)}
    (hq : q ∈ childrenOf rs p) : q.length = p.length + 1 := by
  obtain ⟨r, _, i, _, hil, htp, htq⟩ := mem_childrenOf.mp hq
  have h1 : p.length = i := by
    rw [← htp, List.length_take]
    omega
  rw [← htq, List.length_take]
  omega

theorem childrenOf_isPrefix {rs : List ScanResult} {p q : List (List Char)}
    (hq : q ∈ childrenOf rs p) : p <+: q := by
  obtain ⟨r, _, i, _, hil, htp, htq⟩ := mem_childrenOf.mp hq
  rw [← htp, ← htq]
  have := List.take_prefix i ((dirSegs r).take (i + 1))
  rwa [List.take_take, Nat.min_eq_left (by omega)] at this

theorem take_mem_childrenOf {rs : List ScanResult} {p : List (List Char)}
    {r : ScanResult} (hr : r ∈ rs) (hp : 0 < p.length)
    (hpd : p <+: dirSegs r) (hne : dirSegs r ≠ p) :
    (dirSegs r).take (p.length + 1) ∈ childrenOf rs p := by
  have hlt : p.length < (dirSegs r).length := by
    rcases Nat.lt_or_ge p.length (dirSegs r).length with h | h
    · exact h
    · exfalso
      have hle := hpd.length_le
      have : p.length = (dirSegs r).length := by omega
      exact hne (List.IsPrefix.eq_of_length hpd this).symm
  refine mem_childrenOf.mpr ⟨r, hr, p.length, hp, hlt, ?_, rfl⟩
  exact (List.prefix_iff_eq_take.mp hpd).symm

theorem childrenOf_unique {rs : List ScanResult} {p q : List (List Char)}
    {d : List (List Char)} (hq : q ∈ childrenOf rs p) (hqd : q <+: d) :
    q = d.take (p.length + 1) := by
  have hl := childrenOf_length hq
  rw [List.prefix_iff_eq_take.mp hqd, hl]

theorem countP_eq_sum_map_ite {α : Type} (f : α → Bool) (l : List α) :
    l.countP f = (l.map (fun a => if f a then 1 else 0)).sum := by
  induction l with
  | nil => simp
  | cons a l ih => simp [List.countP_cons, ih]; omega

theorem sum_map_add {α : Type} (f g : α → Nat) (l : List α) :
    (l.map (fun a => f a + g a)).sum = (l.map f).sum + (l.map g).sum := by
  induction l with
  | nil => simp
  | cons a l ih => simp [ih]; omega

theorem sum_map_countP_comm {α β : Type} (f : α → β → Bool) :
    ∀ (rs : List β) (L : List α),
      (L.map (fun q => rs.countP (f q))).sum =
        (rs.map (fun r => L.countP (fun q => f q r))).sum := by
  intro rs
  induction rs with
  | nil => intro L; simp
  | cons r rest ih =>
    intro L
    have h1 : ∀ q, rest.countP (f q) + (if f q r then 1 else 0) =
        (r :: rest).countP (f q) := fun q => (List.countP_cons (f q) r rest).symm
    calc (L.map (fun q => (r :: rest).countP (f q))).sum
        = (L.map (fun q => rest.countP (f q) + (if f q r then 1 else 0))).sum := by
          simp [List.countP_cons]
      _ = (L.map (fun q => rest.countP (f q))).sum +
            (L.map (fun q => if f q r then 1 else 0)).sum := sum_map_add ..
      _ = (rest.map (fun r => L.countP (fun q => f q r))).sum +
            L.countP (fun q => f q r) := by
          rw [ih, ← countP_eq_sum_map_ite]
      _ = ((r :: rest).map (fun r => L.countP (fun q => f q r))).sum := by
          simp; omega

theorem countP_split {α : Type} (l : List α) (f g : α → Bool) :
    l.countP f = l.countP (fun a => f a && g a) + l.countP (fun a => f a && !g a) := by
  induction l with
  | nil => simp
  | cons a l ih =>
    simp only [List.countP_cons, ih]
    cases hf : f a <;> cases hg : g a <;> simp <;> omega

theorem countP_eq_one_of_nodup {α : Type} {l : List α} (hnd : l.Nodup)
    {a : α} (ha : a ∈ l) (f : α → Bool) (hf : ∀ b ∈ l, f b = true ↔ b = a) :
    l.countP f = 1 := by
  induction l with
  | nil => simp at ha
  | cons x l ih =>
    rw [List.nodup_cons] at hnd
    by_cases hax : a = x
    · subst hax
      have hx : f a = true := (hf a (List.mem_cons_self a l)).mpr rfl
      have hzero : l.countP f = 0 := by
        refine List.countP_eq_zero.mpr fun b hb hfb => ?_
        have := (hf b (List.mem_cons_of_mem _ hb)).mp hfb
        exact hnd.1 (this ▸ hb)
      rw [List.countP_cons, hzero, hx]
      simp
    · have hal : a ∈ l := by
        rcases List.mem_cons.mp ha with h | h
        · exact absurd h hax
        · exact h
      have hx : f x = false := by
        rcases hfx : f x with _ | _
        · rfl
        · exact absurd ((hf x (List.mem_cons_self x l)).mp hfx).symm hax
      rw [List.countP_cons, hx,
        ih hnd.2 hal fun b hb => hf b (List.mem_cons_of_mem _ hb)]
      simp

theorem children_countP_under {rs : List ScanResult} {p : List (List Char)}
    (hp : 0 < p.length) {r : ScanResult} (hr : r ∈ rs) :
    (childrenOf rs p).countP (fun q => q.isPrefixOf (dirSegs r)) =
      if p <+: dirSegs r ∧ dirSegs r ≠ p then 1 else 0 := by
  by_cases hs : p <+: dirSegs r ∧ dirSegs r ≠ p
  · rw [if_pos hs]
    obtain ⟨hpd, hne⟩ := hs
    refine countP_eq_one_of_nodup (List.nodup_dedup _)
      (take_mem_childrenOf hr hp hpd hne) _ fun q hq => ?_
    simp only [List.isPrefixOf_iff_prefix]
    constructor
    · intro hpre
      exact childrenOf_unique hq hpre
    · rintro rfl
      exact List.take_prefix _ _
  · rw [if_neg hs]
    refine List.countP_eq_zero.mpr fun q hq => ?_
    simp only [List.isPrefixOf_iff_prefix]
    intro hqd
    have hpq := childrenOf_isPrefix hq
    have hlen := childrenOf_length hq
    refine hs ⟨hpq.trans hqd, fun hdp => ?_⟩
    have := hqd.length_le
    rw [hdp] at this
    omega

theorem countP_under_split (rs : List ScanResult) (p : List (List Char))
    (g : ScanResult → Bool) (hp : 0 < p.length) :
    rs.countP (fun r => p.isPrefixOf (dirSegs r) && g r) =
      rs.countP (fun r => decide (dirSegs r = p) && g r) +
      ((childrenOf rs p).map
        (fun q => rs.countP (fun r => q.isPrefixOf (dirSegs r) && g r))).sum := by
  rw [sum_map_countP_comm (fun q r => q.isPrefixOf (dirSegs r) && g r) rs
    (childrenOf rs p)]
  have hinner : ∀ r ∈ rs,
      (childrenOf rs p).countP (fun q => q.isPrefixOf (dirSegs r) && g r) =
        if (p.isPrefixOf (dirSegs r) && !(decide (dirSegs r = p))) && g r
        then 1 else 0 := by
    intro r hr
    cases hg : g r
    · simp
    · simp only [Bool.and_true]
      rw [children_countP_under hp hr]
      by_cases hc : p <+: dirSegs r ∧ dirSegs r ≠ p
      · rw [if_pos hc, if_pos]
        simp only [Bool.and_eq_true, List.isPrefixOf_iff_prefix,
          Bool.not_eq_true', decide_eq_false_iff_not]
        exact hc
      · rw [if_neg hc, if_neg]
        simp only [Bool.and_eq_true, List.isPrefixOf_iff_prefix,
          Bool.not_eq_true', decide_eq_false_iff_not]
        exact hc
  rw [List.map_congr_left hinner, ← countP_eq_sum_map_ite]
  rw [countP_split rs (fun r => p.isPrefixOf (dirSegs r) && g r)
    (fun r => decide (dirSegs r = p))]
  congr 1
  · refine List.countP_congr fun r _ => ?_
    cases hgr : g r <;> by_cases hd : dirSegs r = p <;>
      simp [hd, hgr, List.isPrefixOf_iff_prefix]
  · refine List.countP_congr fun r _ => ?_
    cases hgr : g r <;> by_cases hd : dirSegs r = p <;>
      simp [hd, hgr, List.isPrefixOf_iff_prefix]

theorem dirSegs_length_le_maxDirLen {rs : List ScanResult} {r : ScanResult}
    (hr : r ∈ rs) : (dirSegs r).length ≤ maxDirLen rs := by
  induction rs with
  | nil => simp at hr
  | cons x l ih =>
    rcases List.mem_cons.mp hr with rfl | h
    · simp only [maxDirLen, List.map_cons, List.foldr_cons]
      omega
    · have hh := ih h
      simp only [maxDirLen, List.map_cons, List.foldr_cons]
      simp only [maxDirLen] at hh
      omega

theorem countRec_foldl (rs : List ScanResult) (fuel : Nat)
    (L : List (List (List Char))) :
    ∀ (a b : Nat),
      L.foldl (fun acc q =>
          let c := countRec rs fuel q
          (acc.1 + c.1, acc.2 + c.2)) (a, b) =
        (a + (L.map (fun q => (countRec rs fuel q).1)).sum,
         b + (L.map (fun q => (countRec rs fuel q).2)).sum) := by
  induction L with
  | nil => intro a b; simp
  | cons q L ih =>
    intro a b
    simp only [List.foldl_cons, List.map_cons, List.sum_cons, ih]
    rw [Nat.add_assoc, Nat.add_assoc]

theorem countRec_eq (rs : List ScanResult) :
    ∀ (fuel : Nat) (p : List (List Char)), 0 < p.length →
      maxDirLen rs < fuel + p.length →
      countRec rs fuel p =
        (rs.countP (fun r => p.isPrefixOf (dirSegs r)),
         rs.countP (fun r => p.isPrefixOf (dirSegs r) && r.should_delete)) := by
  intro fuel
  induction fuel with
  | zero =>
    intro p hp hf
    have hnone : ∀ r ∈ rs, ¬ (p.isPrefixOf (dirSegs r) = true) := by
      intro r hr hpre
      have h1 := (List.isPrefixOf_iff_prefix.mp hpre).length_le
      have h2 := dirSegs_length_le_maxDirLen hr
      omega
    simp only [countRec]
    rw [List.countP_eq_zero.mpr hnone,
      List.countP_eq_zero.mpr fun r hr h => hnone r hr (by
        exact (Bool.and_eq_true ..).mp h |>.1)]
  | succ fuel ih =>
    intro p hp hf
    have hchild : ∀ q ∈ childrenOf rs p,
        countRec rs fuel q =
          (rs.countP (fun r => q.isPrefixOf (dirSegs r)),
           rs.countP (fun r => q.isPrefixOf (dirSegs r) && r.should_delete)) := by
      intro q hq
      exact ih q (by have := childrenOf_length hq; omega)
        (by have := childrenOf_length hq; omega)
    simp only [countRec, countRec_foldl, fileIdx_length, fileIdx_filter_length]
    have htot : rs.countP (fun r => decide (dirSegs r = p)) +
        ((childrenOf rs p).map (fun q => (countRec rs fuel q).1)).sum =
        rs.countP (fun r => p.isPrefixOf (dirSegs r)) := by
      have := countP_under_split rs p (fun _ => true) hp
      simp only [Bool.and_true] at this
      rw [this]
      congr 1
      exact congrArg List.sum (List.map_congr_left fun q hq => by rw [hchild q hq])
    have hsel : rs.countP (fun r => decide (dirSegs r = p) && r.should_delete) +
        ((childrenOf rs p).map (fun q => (countRec rs fuel q).2)).sum =
        rs.countP (fun r => p.isPrefixOf (dirSegs r) && r.should_delete) := by
      rw [countP_under_split rs p (fun r => r.should_delete) hp]
      congr 1
      exact congrArg List.sum (List.map_congr_left fun q hq => by rw [hchild q hq])
    rw [htot, hsel]

theorem getD_map_lt (f : ScanResult → ScanResult) {rs : List ScanResult}
    {j : Nat} (h : j < rs.length) :
    (rs.map f).getD j default = f (rs.getD j default) := by
  rw [List.getD_eq_getElem?_getD, List.getD_eq_getElem?_getD,
    List.getElem?_map, List.getElem?_eq_getElem h]
  simp

theorem getD_of_ge {rs : List ScanResult} {j : Nat} (h : rs.length ≤ j) :
    rs.getD j default = default := by
  rw [List.getD_eq_getElem?_getD, List.getElem?_eq_none h]
  rfl

theorem eq_of_getD {l1 l2 : List ScanResult} (hlen : l1.length = l2.length)
    (h : ∀ j, j < l1.length → l1.getD j default = l2.getD j default) :
    l1 = l2 := by
  refine List.ext_getElem hlen fun n h1 h2 => ?_
  have hn := h n h1
  rwa [List.getD_eq_getElem?_getD, List.getD_eq_getElem?_getD,
    List.getElem?_eq_getElem h1, List.getElem?_eq_getElem h2] at hn

theorem getD_setShouldDelete (rs : List ScanResult) (i : Nat) (v : Bool)
    (j : Nat) :
    (setShouldDelete rs i v).getD j default =
      if i = j ∧ i < rs.length
      then { rs.getD j default with should_delete := v }
      else rs.getD j default := by
  rw [setShouldDelete, List.getD_eq_getElem?_getD, List.getElem?_set]
  by_cases hij : i = j
  · subst hij
    by_cases hi : i < rs.length
    · simp [hi]
    · simp [hi, List.getElem?_eq_none (Nat.le_of_not_lt hi),
        List.getD_eq_getElem?_getD, getD_of_ge (Nat.le_of_not_lt hi)]
  · simp [hij, List.getD_eq_getElem?_getD]

theorem length_setShouldDelete (rs : List ScanResult) (i : Nat) (v : Bool) :
    (setShouldDelete rs i v).length = rs.length := by
  rw [setShouldDelete, List.length_set]

theorem foldl_setSD_length (v : Bool) :
    ∀ (L : List Nat) (rs : List ScanResult),
      (L.foldl (fun acc i => setShouldDelete acc i v) rs).length = rs.length := by
  intro L
  induction L with
  | nil => intro rs; rfl
  | cons i L ih =>
    intro rs
    rw [List.foldl_cons, ih, length_setShouldDelete]

theorem foldl_setSD_getD (v : Bool) :
    ∀ (L : List Nat) (rs : List ScanResult) (j : Nat),
      (L.foldl (fun acc i => setShouldDelete acc i v) rs).getD j default =
        if j ∈ L ∧ j < rs.length
        then { rs.getD j default with should_delete := v }
        else rs.getD j default := by
  intro L
  induction L with
  | nil => intro rs j; simp
  | cons i L ih =>
    intro rs j
    rw [List.foldl_cons, ih, getD_setShouldDelete, length_setShouldDelete]
    split_ifs with h1 h2 h3 h4 h5 h6 <;>
      first
        | rfl
        | ((exfalso; simp_all [List.mem_cons]) <;> omega)

theorem mem_fileIdxAux (p : List (List Char)) :
    ∀ (rs : List ScanResult) (n i : Nat),
      i ∈ fileIdxAux p rs n ↔
        (n ≤ i ∧ i - n < rs.length ∧
          dirSegs (rs.getD (i - n) default) = p) := by
  intro rs
  induction rs with
  | nil => intro n i; simp [fileIdxAux]
  | cons r rest ih =>
    intro n i
    rw [fileIdxAux, List.mem_append, ih]
    constructor
    · rintro (h | ⟨h1, h2, h3⟩)
      · have hi : i = n ∧ dirSegs r = p := by
          by_cases hd : dirSegs r = p
          · simp [hd] at h
            exact ⟨h, hd⟩
          · simp [hd] at h
        obtain ⟨rfl, hd⟩ := hi
        refine ⟨Nat.le_refl _, by simp, ?_⟩
        simpa using hd
      · refine ⟨by omega, by simp; omega, ?_⟩
        have : i - n = (i - (n + 1)) + 1 := by omega
        rw [this, List.getD_cons_succ]
        exact h3
    · rintro ⟨h1, h2, h3⟩
      by_cases hin : i = n
      · subst hin
        simp only [Nat.sub_self, List.getD_cons_zero] at h3
        left
        simp [h3]
      · right
        refine ⟨by omega, by simp at h2; omega, ?_⟩
        have : i - n = (i - (n + 1)) + 1 := by omega
        rw [this, List.getD_cons_succ] at h3
        exact h3

theorem mem_fileIdx {rs : List ScanResult} {p : List (List Char)} {j : Nat} :
    j ∈ fileIdx rs p ↔
      (j < rs.length ∧ dirSegs (rs.getD j default) = p) := by
  rw [fileIdx, mem_fileIdxAux]
  simp

theorem foldl_fileIdx_map (rs0 rs : List ScanResult) (p : List (List Char))
    (v : Bool) (hlen : rs.length = rs0.length)
    (hdirs : ∀ j, dirSegs (rs.getD j default) = dirSegs (rs0.getD j default)) :
    (fileIdx rs0 p).foldl (fun acc i => setShouldDelete acc i v) rs =
      rs.map (fun r =>
        if decide (dirSegs r = p) then { r with should_delete := v } else r) := by
  refine eq_of_getD (by rw [foldl_setSD_length, List.length_map]) fun j hj => ?_
  rw [foldl_setSD_length] at hj
  rw [foldl_setSD_getD, getD_map_lt _ hj]
  by_cases hd : dirSegs (rs.getD j default) = p
  · have hmem : j ∈ fileIdx rs0 p :=
      mem_fileIdx.mpr ⟨hlen ▸ hj, by rw [← hdirs j]; exact hd⟩
    rw [if_pos ⟨hmem, hj⟩, if_pos (decide_eq_true hd)]
  · have hnmem : j ∉ fileIdx rs0 p := fun h =>
      hd (by rw [hdirs j]; exact (mem_fileIdx.mp h).2)
    rw [if_neg (fun h => hnmem h.1), if_neg (by simpa using hd)]

theorem dirSegs_update (r : ScanResult) (v : Bool) :
    dirSegs { r with should_delete := v } = dirSegs r := rfl

theorem exists_rs0_same_dir {rs0 rs : List ScanResult}
    (hlen : rs.length = rs0.length)
    (hdirs : ∀ j, dirSegs (rs.getD j default) = dirSegs (rs0.getD j default))
    {r : ScanResult} (hr : r ∈ rs) : ∃ r0 ∈ rs0, dirSegs r0 = dirSegs r := by
  obtain ⟨j, hj, rfl⟩ := List.mem_iff_getElem.mp hr
  have h1 : rs.getD j default = rs[j] := by
    rw [List.getD_eq_getElem?_getD, List.getElem?_eq_getElem hj]
    rfl
  have hj0 : j < rs0.length := hlen ▸ hj
  have h2 : rs0.getD j default = rs0[j] := by
    rw [List.getD_eq_getElem?_getD, List.getElem?_eq_getElem hj0]
    rfl
  refine ⟨rs0[j], List.getElem_mem hj0, ?_⟩
  rw [← h1, ← h2, hdirs j]

theorem selectAll_children_fold (rs0 : List ScanResult) (fuel : Nat) (v : Bool)
    (ih : ∀ (q : List (List Char)) (rs' : List ScanResult), 0 < q.length →
      maxDirLen rs0 < fuel + q.length → rs'.length = rs0.length →
      (∀ j, dirSegs (rs'.getD j default) = dirSegs (rs0.getD j default)) →
      selectAllRec rs0 fuel q v rs' = setSelectionSpec q v rs') :
    ∀ (C : List (List (List Char))),
      (∀ q ∈ C, 0 < q.length ∧ maxDirLen rs0 < fuel + q.length) →
      ∀ (rs : List ScanResult) (b : List (List Char) → Bool),
        rs.length = rs0.length →
        (∀ j, dirSegs (rs.getD j default) = dirSegs (rs0.getD j default)) →
        C.foldl (fun acc q => selectAllRec rs0 fuel q v acc)
          (rs.map fun r =>
            if b (dirSegs r) then { r with should_delete := v } else r) =
        rs.map fun r =>
          if b (dirSegs r) || C.any (fun q => q.isPrefixOf (dirSegs r))
          then { r with should_delete := v } else r := by
  intro C
  induction C with
  | nil =>
    intro _ rs b hlen hdirs
    simp
  | cons q C ihC =>
    intro hC rs b hlen hdirs
    rw [List.foldl_cons]
    have hq := hC q (List.mem_cons_self q C)
    have hMlen : (rs.map fun r =>
        if b (dirSegs r) then { r with should_delete := v } else r).length =
        rs0.length := by
      rw [List.length_map, hlen]
    have hMdirs : ∀ j, dirSegs ((rs.map fun r =>
        if b (dirSegs r) then { r with should_delete := v } else r).getD j
          default) = dirSegs (rs0.getD j default) := by
      intro j
      by_cases hj : j < rs.length
      · rw [getD_map_lt _ hj, ← hdirs j]
        by_cases hb : b (dirSegs (rs.getD j default)) = true
        · rw [if_pos hb, dirSegs_update]
        · rw [if_neg hb]
      · have hlen2 : rs.length ≤ j := Nat.le_of_not_lt hj
        have h3 : rs0.getD j default = default := getD_of_ge (by omega)
        rw [getD_of_ge (by rw [List.length_map]; exact hlen2), h3]
    rw [ih q _ hq.1 hq.2 hMlen hMdirs, setSelectionSpec, List.map_map]
    have hcomb : ∀ r : ScanResult,
        ((fun r => if q.isPrefixOf (dirSegs r) = true
            then { r with should_delete := v } else r) ∘
          (fun r => if b (dirSegs r) = true
            then { r with should_delete := v } else r)) r =
        (fun r => if (b (dirSegs r) || q.isPrefixOf (dirSegs r)) = true
            then { r with should_delete := v } else r) r := by
      intro r
      by_cases hb : b (dirSegs r) <;>
        by_cases hqr : q.isPrefixOf (dirSegs r) = true <;>
          simp [hb, hqr, dirSegs_update, Function.comp]
    rw [List.map_congr_left fun r _ => hcomb r]
    rw [ihC (fun q' hq' => hC q' (List.mem_cons_of_mem _ hq')) rs
      (fun d => b d || q.isPrefixOf d) hlen hdirs]
    refine List.map_congr_left fun r _ => ?_
    rw [List.any_cons, Bool.or_assoc]

theorem selectAllRec_eq (rs0 : List ScanResult) :
    ∀ (fuel : Nat) (p : List (List Char)) (v : Bool) (rs : List ScanResult),
      0 < p.length → maxDirLen rs0 < fuel + p.length →
      rs.length = rs0.length →
      (∀ j, dirSegs (rs.getD j default) = dirSegs (rs0.getD j default)) →
      selectAllRec rs0 fuel p v rs = setSelectionSpec p v rs := by
  intro fuel
  induction fuel with
  | zero =>
    intro p v rs hp hf hlen hdirs
    simp only [selectAllRec, setSelectionSpec]
    symm
    have hid : ∀ r ∈ rs,
        (if p.isPrefixOf (dirSegs r) = true
          then { r with should_delete := v } else r) = r := by
      intro r hr
      rw [if_neg]
      intro hpre
      obtain ⟨r0, hr0, hdir⟩ := exists_rs0_same_dir hlen hdirs hr
      have h1 := (List.isPrefixOf_iff_prefix.mp hpre).length_le
      have h2 := dirSegs_length_le_maxDirLen hr0
      rw [hdir] at h2
      omega
    rw [List.map_congr_left hid]
    simp
  | succ fuel ih =>
    intro p v rs hp hf hlen hdirs
    simp only [selectAllRec]
    rw [foldl_fileIdx_map rs0 rs p v hlen hdirs]
    have hC : ∀ q ∈ childrenOf rs0 p,
        0 < q.length ∧ maxDirLen rs0 < fuel + q.length := by
      intro q hq
      have := childrenOf_length hq
      constructor <;> omega
    rw [selectAll_children_fold rs0 fuel v
      (fun q rs' h1 h2 h3 h4 => ih q v rs' h1 h2 h3 h4)
      (childrenOf rs0 p) hC rs (fun d => decide (d = p)) hlen hdirs]
    rw [setSelectionSpec]
    refine List.map_congr_left fun r hr => ?_
    by_cases hpd : p <+: dirSegs r
    · have c2 : p.isPrefixOf (dirSegs r) = true :=
        List.isPrefixOf_iff_prefix.mpr hpd
      by_cases heq : dirSegs r = p
      · have c1 : (decide (dirSegs r = p) ||
            (childrenOf rs0 p).any fun q => q.isPrefixOf (dirSegs r)) = true := by
          rw [Bool.or_eq_true]
          exact Or.inl (decide_eq_true heq)
        rw [if_pos c1, if_pos c2]
      · obtain ⟨r0, hr0, hdir⟩ := exists_rs0_same_dir hlen hdirs hr
        have hmem : (dirSegs r).take (p.length + 1) ∈ childrenOf rs0 p := by
          rw [← hdir]
          exact take_mem_childrenOf hr0 hp (hdir ▸ hpd) (hdir ▸ heq)
        have c1 : (decide (dirSegs r = p) ||
            (childrenOf rs0 p).any fun q => q.isPrefixOf (dirSegs r)) = true := by
          rw [Bool.or_eq_true]
          refine Or.inr (List.any_eq_true.mpr ⟨_, hmem, ?_⟩)
          exact List.isPrefixOf_iff_prefix.mpr (List.take_prefix _ _)
        rw [if_pos c1, if_pos c2]
    · have c2 : ¬ p.isPrefixOf (dirSegs r) = true := fun h =>
        hpd (List.isPrefixOf_iff_prefix.mp h)
      have c1 : ¬ (decide (dirSegs r = p) ||
          (childrenOf rs0 p).any fun q => q.isPrefixOf (dirSegs r)) = true := by
        rw [Bool.or_eq_true]
        rintro (h | h)
        · exact hpd (by simp only [decide_eq_true_eq] at h; rw [h])
        · rw [List.any_eq_true] at h
          obtain ⟨q, hq, hqpre⟩ := h
          exact hpd ((childrenOf_isPrefix hq).trans
            (List.isPrefixOf_iff_prefix.mp hqpre))
      rw [if_neg c1, if_neg c2]

theorem length_setSelectionSpec (p : List (List Char)) (v : Bool)
    (rs : List ScanResult) :
    (setSelectionSpec p v rs).length = rs.length := by
  rw [setSelectionSpec, List.length_map]

theorem dirSegs_setSelectionSpec (p : List (List Char)) (v : Bool)
    (rs : List ScanResult) (j : Nat) :
    dirSegs ((setSelectionSpec p v rs).getD j default) =
      dirSegs (rs.getD j default) := by
  by_cases hj : j < rs.length
  · rw [setSelectionSpec, getD_map_lt _ hj]
    by_cases hb : p.isPrefixOf (dirSegs (rs.getD j default)) = true
    · rw [if_pos hb, dirSegs_update]
    · rw [if_neg hb]
  · have h2 : rs.getD j default = default := getD_of_ge (Nat.le_of_not_lt hj)
    have h1 : (setSelectionSpec p v rs).getD j default = default :=
      getD_of_ge (by rw [length_setSelectionSpec]; omega)
    rw [h1, h2]

theorem maxDirLen_setSelectionSpec (p : List (List Char)) (v : Bool)
    (rs : List ScanResult) :
    maxDirLen (setSelectionSpec p v rs) = maxDirLen rs := by
  simp only [maxDirLen, setSelectionSpec]
  rw [List.map_map]
  congr 1
  refine List.map_congr_left fun r _ => ?_
  by_cases hb : p.isPrefixOf (dirSegs r) = true
  · simp only [Function.comp, if_pos hb, dirSegs_update]
  · simp only [Function.comp, if_neg hb]

theorem setSelectionSpec_idem (p : List (List Char)) (v : Bool)
    (rs : List ScanResult) :
    setSelectionSpec p v (setSelectionSpec p v rs) = setSelectionSpec p v rs := by
  simp only [setSelectionSpec]
  rw [List.map_map]
  refine List.map_congr_left fun r _ => ?_
  by_cases hb : p.isPrefixOf (dirSegs r) = true
  · simp only [Function.comp, if_pos hb, dirSegs_update, if_pos hb]
  · simp only [Function.comp, if_neg hb]

theorem countP_prefix_setSelectionSpec (p q : List (List Char)) (v : Bool)
    (rs : List ScanResult) :
    (setSelectionSpec p v rs).countP (fun r => q.isPrefixOf (dirSegs r)) =
      rs.countP (fun r => q.isPrefixOf (dirSegs r)) := by
  rw [setSelectionSpec, List.countP_map]
  refine List.countP_congr fun r _ => ?_
  simp only [Function.comp]
  by_cases hb : p.isPrefixOf (dirSegs r) = true
  · rw [if_pos hb, dirSegs_update]
  · rw [if_neg hb]

theorem countP_sel_setSelectionSpec_true (p q : List (List Char))
    (rs : List ScanResult) (hpq : p <+: q) :
    (setSelectionSpec p true rs).countP
        (fun r => q.isPrefixOf (dirSegs r) && r.should_delete) =
      rs.countP (fun r => q.isPrefixOf (dirSegs r)) := by
  rw [setSelectionSpec, List.countP_map]
  refine List.countP_congr fun r _ => ?_
  simp only [Function.comp]
  by_cases hq : q.isPrefixOf (dirSegs r) = true
  · have hp : p.isPrefixOf (dirSegs r) = true :=
      List.isPrefixOf_iff_prefix.mpr
        (hpq.trans (List.isPrefixOf_iff_prefix.mp hq))
    rw [if_pos hp]
    simp [dirSegs_update, hq]
  · by_cases hp : p.isPrefixOf (dirSegs r) = true
    · rw [if_pos hp]
      simp [dirSegs_update, hq]
    · rw [if_neg hp]
      simp [hq]

theorem countP_sel_setSelectionSpec_false (p q : List (List Char))
    (rs : List ScanResult) (hpq : p <+: q) :
    (setSelectionSpec p false rs).countP
        (fun r => q.isPrefixOf (dirSegs r) && r.should_delete) = 0 := by
  rw [setSelectionSpec, List.countP_map]
  refine List.countP_eq_zero.mpr fun r _ => ?_
  simp only [Function.comp]
  by_cases hq : q.isPrefixOf (dirSegs r) = true
  · have hp : p.isPrefixOf (dirSegs r) = true :=
      List.isPrefixOf_iff_prefix.mpr
        (hpq.trans (List.isPrefixOf_iff_prefix.mp hq))
    rw [if_pos hp]
    simp [dirSegs_update]
  · by_cases hp : p.isPrefixOf (dirSegs r) = true
    · rw [if_pos hp]
      simp [dirSegs_update, hq]
    · rw [if_neg hp]
      simp [hq]

/-- C5: for every candidate set and every tree node `p`,
`count_files_recursive` returns `total` = the number of candidates whose
parent chain lies under `p` and `selected` = the number of those with
`should_delete = true` (direct candidates plus recursive child sums, no
double counting), and `selected ≤ total`. -/
theorem count_files_recursive_correct (rs : List ScanResult)
    (fuel : Nat) (p : List (List Char)) (hp : 0 < p.length)
    (hf : maxDirLen rs < fuel + p.length) :
    countRec rs fuel p =
      (rs.countP (fun r => p.isPrefixOf (dirSegs r)),
       rs.countP (fun r => p.isPrefixOf (dirSegs r) && r.should_delete))
    ∧ (countRec rs fuel p).2 ≤ (countRec rs fuel p).1 := by
  have h := countRec_eq rs fuel p hp hf
  refine ⟨h, ?_⟩
  rw [h]
  exact List.countP_mono_left fun r _ hr => ((Bool.and_eq_true ..).mp hr).1

theorem count_files_recursive_correct_witness :
    countRec
        [⟨"/u/a/f1.txt".toList, "f1.txt".toList, true, 40⟩,
         ⟨"/u/a/b/f2.txt".toList, "f2.txt".toList, false, 20⟩] 4
        ["u".toList, "a".toList] =
      (List.countP (fun r => ["u".toList, "a".toList].isPrefixOf (dirSegs r))
        [⟨"/u/a/f1.txt".toList, "f1.txt".toList, true, 40⟩,
         ⟨"/u/a/b/f2.txt".toList, "f2.txt".toList, false, 20⟩],
       List.countP (fun r =>
          ["u".toList, "a".toList].isPrefixOf (dirSegs r) && r.should_delete)
        [⟨"/u/a/f1.txt".toList, "f1.txt".toList, true, 40⟩,
         ⟨"/u/a/b/f2.txt".toList, "f2.txt".toList, false, 20⟩])
    ∧ (countRec
        [⟨"/u/a/f1.txt".toList, "f1.txt".toList, true, 40⟩,
         ⟨"/u/a/b/f2.txt".toList, "f2.txt".toList, false, 20⟩] 4
        ["u".toList, "a".toList]).2 ≤
      (countRec
        [⟨"/u/a/f1.txt".toList, "f1.txt".toList, true, 40⟩,
         ⟨"/u/a/b/f2.txt".toList, "f2.txt".toList, false, 20⟩] 4
        ["u".toList, "a".toList]).1 :=
  count_files_recursive_correct
    [⟨"/u/a/f1.txt".toList, "f1.txt".toList, true, 40⟩,
     ⟨"/u/a/b/f2.txt".toList, "f2.txt".toList, false, 20⟩] 4
    ["u".toList, "a".toList] (by decide) (by decide)

/-- C6: `select_all_recursive(node, v)` sets `should_delete = v` for exactly
the candidates whose parent chain passes through the node (refines
`setSelectionSpec`); it is idempotent; and after selecting with `true`
every node `q` at or below the node counts `selected = total`, after
`false` it counts `selected = 0`. -/
theorem set_selection_recursive_correct (rs0 : List ScanResult)
    (p q : List (List Char)) (v : Bool) (fuel1 fuel2 : Nat)
    (hp : 0 < p.length) (hpq : p <+: q)
    (h1 : maxDirLen rs0 < fuel1 + p.length)
    (h2 : maxDirLen rs0 < fuel2 + q.length) :
    selectAllRec rs0 fuel1 p v rs0 = setSelectionSpec p v rs0
    ∧ selectAllRec (setSelectionSpec p v rs0) fuel1 p v
        (setSelectionSpec p v rs0) = setSelectionSpec p v rs0
    ∧ (countRec (setSelectionSpec p true rs0) fuel2 q).2 =
        (countRec (setSelectionSpec p true rs0) fuel2 q).1
    ∧ (countRec (setSelectionSpec p false rs0) fuel2 q).2 = 0 := by
  have hq0 : 0 < q.length := by
    have := hpq.length_le
    omega
  refine ⟨?_, ?_, ?_, ?_⟩
  · exact selectAllRec_eq rs0 fuel1 p v rs0 hp h1 rfl (fun j => rfl)
  · have h := selectAllRec_eq (setSelectionSpec p v rs0) fuel1 p v
      (setSelectionSpec p v rs0) hp
      (by rw [maxDirLen_setSelectionSpec]; exact h1) rfl (fun j => rfl)
    rw [h, setSelectionSpec_idem]
  · have hc := countRec_eq (setSelectionSpec p true rs0) fuel2 q hq0
      (by rw [maxDirLen_setSelectionSpec]; exact h2)
    have e1 : (countRec (setSelectionSpec p true rs0) fuel2 q).2 =
        rs0.countP (fun r => q.isPrefixOf (dirSegs r)) := by
      rw [hc]
      exact countP_sel_setSelectionSpec_true p q rs0 hpq
    have e2 : (countRec (setSelectionSpec p true rs0) fuel2 q).1 =
        rs0.countP (fun r => q.isPrefixOf (dirSegs r)) := by
      rw [hc]
      exact countP_prefix_setSelectionSpec p q true rs0
    rw [e1, e2]
  · have hc := countRec_eq (setSelectionSpec p false rs0) fuel2 q hq0
      (by rw [maxDirLen_setSelectionSpec]; exact h2)
    have e1 : (countRec (setSelectionSpec p false rs0) fuel2 q).2 =
        (setSelectionSpec p false rs0).countP
          (fun r => q.isPrefixOf (dirSegs r) && r.should_delete) := by
      rw [hc]
    rw [e1]
    exact countP_sel_setSelectionSpec_false p q rs0 hpq

theorem set_selection_recursive_correct_witness :
    selectAllRec [⟨"/u/a/f1.txt".toList, "f1.txt".toList, true, 40⟩] 3
        ["u".toList] false [⟨"/u/a/f1.txt".toList, "f1.txt".toList, true, 40⟩] =
      setSelectionSpec ["u".toList] false
        [⟨"/u/a/f1.txt".toList, "f1.txt".toList, true, 40⟩]
    ∧ selectAllRec (setSelectionSpec ["u".toList] false
          [⟨"/u/a/f1.txt".toList, "f1.txt".toList, true, 40⟩]) 3
        ["u".toList] false (setSelectionSpec ["u".toList] false
          [⟨"/u/a/f1.txt".toList, "f1.txt".toList, true, 40⟩]) =
      setSelectionSpec ["u".toList] false
        [⟨"/u/a/f1.txt".toList, "f1.txt".toList, true, 40⟩]
    ∧ (countRec (setSelectionSpec ["u".toList] true
          [⟨"/u/a/f1.txt".toList, "f1.txt".toList, true, 40⟩]) 3
        ["u".toList, "a".toList]).2 =
      (countRec (setSelectionSpec ["u".toList] true
          [⟨"/u/a/f1.txt".toList, "f1.txt".toList, true, 40⟩]) 3
        ["u".toList, "a".toList]).1
    ∧ (countRec (setSelectionSpec ["u".toList] false
          [⟨"/u/a/f1.txt".toList, "f1.txt".toList, true, 40⟩]) 3
        ["u".toList, "a".toList]).2 = 0 :=
  set_selection_recursive_correct
    [⟨"/u/a/f1.txt".toList, "f1.txt".toList, true, 40⟩]
    ["u".toList] ["u".toList, "a".toList] false 3 3
    (by decide) (by decide) (by decide) (by decide)
